import Mathlib

/-!
Verification development for `selectionStats.py` (topfm/popgen-stats).

The script is shallowly embedded: pure string transforms become Lean
functions on `String`/`List Char`; the Python dictionaries become
association lists; the calls into the external population-genetics
library (egglib) are parameters of the embedded functions, since the
library is an assumed-correct external collaborator; the
`sys.exit()` hard stop and the caught `IndexError` become an
`Except` error value.
-/

set_option maxHeartbeats 1000000

namespace SelStats

/-! ## Stop-codon masking (`replace_stop`, selectionStats.py lines 56-61) -/

/-- The literal list `stop_codons = ['TAA', 'TAG', 'TGA', 'taa', 'tag', 'tga']`
from `replace_stop`. -/
def stop_codons : List (List Char) :=
  [['T','A','A'], ['T','A','G'], ['T','G','A'],
   ['t','a','a'], ['t','a','g'], ['t','g','a']]

/-- One step of the comprehension `[x if x not in stop_codons else '---' for x in codons]`. -/
def maskCodon (c : List Char) : List Char :=
  if c ∈ stop_codons then ['-','-','-'] else c

/-- The codon split `[sequence[i:i+3] for i in range(0, len(sequence), 3)]`:
chunks of three characters, with a shorter trailing chunk when the length is
not divisible by three. -/
def chunks3 : List Char → List (List Char)
  | [] => []
  | [a] => [[a]]
  | [a, b] => [[a, b]]
  | a :: b :: c :: rest => [a, b, c] :: chunks3 rest

/-- Character-list level of `replace_stop`: mask each codon and rejoin
(`''.join(codons)`). -/
def maskL (l : List Char) : List Char :=
  ((chunks3 l).map maskCodon).flatten

/-- `def replace_stop(sequence)` from selectionStats.py. -/
def replace_stop (s : String) : String :=
  String.mk (maskL s.data)

lemma mem_stop_codons_length {c : List Char} (h : c ∈ stop_codons) :
    c.length = 3 := by
  simp only [stop_codons, List.mem_cons, List.not_mem_nil, or_false] at h
  rcases h with h | h | h | h | h | h <;> subst h <;> rfl

lemma maskCodon_length (c : List Char) : (maskCodon c).length = c.length := by
  by_cases h : c ∈ stop_codons
  · simp [maskCodon, h, mem_stop_codons_length h]
  · simp [maskCodon, h]

lemma maskCodon_of_length_ne {c : List Char} (h : c.length ≠ 3) :
    maskCodon c = c := by
  have : c ∉ stop_codons := fun hm => h (mem_stop_codons_length hm)
  simp [maskCodon, this]

lemma maskL_nil : maskL [] = [] := rfl

lemma maskL_cons3 (a b c : Char) (rest : List Char) :
    maskL (a :: b :: c :: rest) = maskCodon [a, b, c] ++ maskL rest := by
  simp [maskL, chunks3]

lemma maskL_short (l : List Char) (h : l.length < 3) : maskL l = maskCodon l := by
  match l with
  | [] => rw [maskL_nil]; decide
  | [a] => simp [maskL, chunks3]
  | [a, b] => simp [maskL, chunks3]
  | a :: b :: c :: rest => simp at h; omega

lemma maskCodon_three (a b c : Char) :
    ∃ x y z : Char, maskCodon [a, b, c] = [x, y, z] := by
  have h3 : (maskCodon [a, b, c]).length = 3 := by
    simp [maskCodon_length]
  exact List.length_eq_three.mp h3

theorem maskL_length : ∀ l : List Char, (maskL l).length = l.length
  | [] => rfl
  | [a] => by
      rw [maskL_short [a] (by simp), maskCodon_of_length_ne (by simp)]
  | [a, b] => by
      rw [maskL_short [a, b] (by simp), maskCodon_of_length_ne (by simp)]
  | a :: b :: c :: rest => by
      rw [maskL_cons3, List.length_append, maskCodon_length,
        maskL_length rest]
      simp; omega

lemma replace_stop_length (s : String) :
    (replace_stop s).length = s.length := by
  show (maskL s.data).length = s.data.length
  exact maskL_length s.data

lemma maskL_drop3 : ∀ l : List Char, (maskL l).drop 3 = maskL (l.drop 3)
  | [] => rfl
  | [a] => by
      rw [maskL_short [a] (by simp), maskCodon_of_length_ne (by simp)]
      simp [maskL_nil]
  | [a, b] => by
      rw [maskL_short [a, b] (by simp), maskCodon_of_length_ne (by simp)]
      simp [maskL_nil]
  | a :: b :: c :: rest => by
      obtain ⟨x, y, z, hxyz⟩ := maskCodon_three a b c
      rw [maskL_cons3, hxyz]
      simp

lemma maskL_take3 : ∀ l : List Char, (maskL l).take 3 = maskCodon (l.take 3)
  | [] => by rw [maskL_nil]; decide
  | [a] => by
      rw [maskL_short [a] (by simp)]
      rw [List.take_of_length_le (by rw [maskCodon_length]; simp)]
      simp
  | [a, b] => by
      rw [maskL_short [a, b] (by simp)]
      rw [List.take_of_length_le (by rw [maskCodon_length]; simp)]
      simp
  | a :: b :: c :: rest => by
      obtain ⟨x, y, z, hxyz⟩ := maskCodon_three a b c
      have hr : (a :: b :: c :: rest).take 3 = [a, b, c] := rfl
      rw [maskL_cons3, hr, hxyz]
      simp

lemma maskL_window (l : List Char) :
    ∀ k : Nat, ((maskL l).drop (3 * k)).take 3 = maskCodon ((l.drop (3 * k)).take 3) := by
  intro k
  induction k generalizing l with
  | zero => simpa using maskL_take3 l
  | succ n ih =>
      have h1 : 3 * (n + 1) = 3 + 3 * n := by ring
      rw [h1, ← List.drop_drop, ← List.drop_drop, maskL_drop3]
      exact ih (l.drop 3)

lemma maskCodon_idem (c : List Char) : maskCodon (maskCodon c) = maskCodon c := by
  by_cases h : c ∈ stop_codons
  · simp only [maskCodon, if_pos h]
    have : (['-','-','-'] : List Char) ∉ stop_codons := by decide
    simp [this]
  · simp [maskCodon, h]

lemma maskL_append3 (w : List Char) (hw : w.length = 3) (r : List Char) :
    maskL (w ++ r) = maskCodon w ++ maskL r := by
  obtain ⟨x, y, z, h⟩ := List.length_eq_three.mp hw
  subst h
  exact maskL_cons3 x y z r

theorem maskL_idem : ∀ l : List Char, maskL (maskL l) = maskL l
  | [] => rfl
  | [a] => by
      rw [maskL_short [a] (by simp), maskCodon_of_length_ne (by simp),
        maskL_short [a] (by simp), maskCodon_of_length_ne (by simp)]
  | [a, b] => by
      rw [maskL_short [a, b] (by simp), maskCodon_of_length_ne (by simp),
        maskL_short [a, b] (by simp), maskCodon_of_length_ne (by simp)]
  | a :: b :: c :: rest => by
      rw [maskL_cons3,
        maskL_append3 _ (by simp [maskCodon_length]) _,
        maskCodon_idem, maskL_idem rest]

/-- C1: the claim asserts case-insensitive stop-codon matching; the code's
literal list contains only the all-uppercase and all-lowercase spellings, so
the mixed-case stop codon `Taa` (case-insensitively equal to the stop codon
`TAA`, as its lowercasing shows) sits at a codon boundary and is not replaced
by `---`. -/
theorem C1_counterexample :
    replace_stop "Taa" = "Taa" ∧ "Taa".data.map Char.toLower = "taa".data ∧
      ("Taa" : String) ≠ "---" := by
  refine ⟨?_, ?_, ?_⟩ <;> decide

/-- C1 (amended): for every input string the masking function returns a string
of the same length; every 3-character window aligned to a codon boundary is
mapped through `maskCodon`, i.e. it is replaced by `---` exactly when it equals
one of the six literal spellings `TAA, TAG, TGA, taa, tag, tga` and is
unchanged otherwise; in particular a window that is not exactly 3 characters
long (the trailing partial codon) is passed through unchanged. -/
theorem C1_mask_amended (s : String) (k : Nat) :
    (replace_stop s).length = s.length ∧
    ((replace_stop s).data.drop (3 * k)).take 3
      = maskCodon ((s.data.drop (3 * k)).take 3) ∧
    (∀ w : List Char, w.length ≠ 3 → maskCodon w = w) := by
  refine ⟨replace_stop_length s, ?_, fun w hw => maskCodon_of_length_ne hw⟩
  simpa [replace_stop] using maskL_window s.data k

/-- Concrete instantiation of `C1_mask_amended`: the second codon window of
`AAATAG` is the stop codon `TAG` and is masked, and the hypothesis of the
partial-codon conjunct is discharged at the 1-character window `['a']`. -/
theorem C1_mask_amended_witness :
    (replace_stop "AAATAG").length = 6 ∧
    ((replace_stop "AAATAG").data.drop 3).take 3 = ['-','-','-'] ∧
    maskCodon ['a'] = ['a'] := by
  have h := C1_mask_amended "AAATAG" 1
  refine ⟨h.1, ?_, h.2.2 ['a'] (by decide)⟩
  have h2 := h.2.1
  norm_num at h2
  rw [h2]
  decide

/-- C7: applying the stop-codon masking function twice gives the same result
as applying it once: masked gap codons are not stop codons and unmasked codons
are unchanged by a second pass. -/
theorem C7_mask_idempotent (s : String) :
    replace_stop (replace_stop s) = replace_stop s := by
  simp [replace_stop, maskL_idem]

/-! ## Data model for `calc_stats` (selectionStats.py lines 63-110)

An egglib alignment is a list of named sequences with a group tag
(`from_fasta` loads every sequence in the default ingroup, group `0`;
`a.group(i, group=999)` retags one sequence).  The two statistics
routines the script calls — `egglib.stats.ComputeStats.process_align`
and `Align.polymorphismBPP` — belong to the external library whose
correctness the program assumes, so they are parameters of the embedded
`calc_stats`. -/

/-- One sequence of an egglib alignment: FASTA name, nucleotide string,
and egglib group tag. -/
structure SeqEntry where
  name : String
  seq : String
  group : Nat
deriving DecidableEq, Repr

/-- An egglib alignment object. -/
abbrev Align := List SeqEntry

/-- Result dictionary of `cs.process_align(a, max_missing=.2)`: the statistics
requested by `cs.add_stats('thetaW','Pi','D','lseff','nseff')`.  A `none`
field is the Python `None` the library returns when a statistic is not
computable. -/
structure PolyDict where
  thetaW : Option ℚ
  piStat : Option ℚ
  D : Option ℚ
  lseff : Option ℚ
  nseff : Option ℚ

/-- Result dictionary of `a.polymorphismBPP(dataType=4)`, restricted to the
four keys the script reads (`PiNS`, `PiS`, `MK`, `NI`). -/
structure BPPDict where
  PiNS : Option ℚ
  PiS : Option ℚ
  MK : Option ℚ
  NI : Option ℚ

/-- A `statDict`: mapping from statistic name to value in insertion order,
mirroring a Python dict with string keys. -/
abbrev StatResult := List (String × Option ℚ)

/-- Python dict assignment `d[k] = v`: update the existing key in place, or
append a new key at the end. -/
def dinsert (d : StatResult) (k : String) (v : Option ℚ) : StatResult :=
  if d.any (fun e => e.1 == k) then
    d.map (fun e => if e.1 == k then (k, v) else e)
  else
    d ++ [(k, v)]

/-- Python `k in d` for a `statDict`. -/
def containsKey (d : StatResult) (k : String) : Bool :=
  d.any (fun e => e.1 == k)

/-- Length of `a.sequence(1)`: the script measures the alignment length on
the sequence at index 1.  (Python raises `IndexError` for an alignment of
fewer than two sequences; the claims below only quantify over alignments
where index 1 exists.) -/
def seqLen1 (a : Align) : Nat :=
  ((a[1]?).map (fun s => s.seq.length)).getD 0

/-- The masking loop (lines 68-71): when frame mode is on, every sequence is
replaced by its stop-codon-masked form; otherwise the loop only performs the
discarded read `a.get_sequence(i)`. -/
def maskAlign (frame : Bool) (a : Align) : Align :=
  if frame then a.map (fun s => { s with seq := replace_stop s.seq }) else a

/-- The `try:` block of lines 73-83.  Python evaluates the four assignments in
order; `float(None)` and `x / None` raise `TypeError`, which the `except`
clause turns into `None` entries for `theta`, `pi` and `tajimaD` while still
storing `nseff` from the same `polyDict`. -/
def exceptTypeError (p : PolyDict) (d : StatResult) : StatResult :=
  dinsert (dinsert (dinsert (dinsert d "theta" none) "pi" none)
    "tajimaD" none) "nseff" p.nseff

/-- Statements `statDict['theta'] = ...` through `statDict['nseff'] = ...`
(lines 74-77) under the `try`/`except TypeError` of lines 73-83.  Rational
division stands in for Python float division; an absent (`None`) operand is
the caught `TypeError`.  (The unmodelled `ZeroDivisionError` on
`lseff == 0` is not caught by the script; the claims below assume a nonzero
effective length.) -/
def tryStats (p : PolyDict) (d : StatResult) : StatResult :=
  match p.thetaW, p.lseff with
  | some tw, some ls =>
      let d1 := dinsert d "theta" (some (tw / ls))
      match p.piStat with
      | some pv =>
          let d2 := dinsert d1 "pi" (some (pv / ls))
          let d3 := dinsert d2 "tajimaD" p.D
          dinsert d3 "nseff" p.nseff
      | none => exceptTypeError p d1
  | _, _ => exceptTypeError p d

/-- Non-strict egglib name lookup: `find(name, strict=False)` matches a
stored sequence name that begins with the query string (library contract,
spec section 6). -/
def labelMatches (lbl nm : String) : Bool :=
  lbl.data.isPrefixOf nm.data

/-- `temp_a.find(label, strict=False)`: index of the first sequence whose
name matches, `None` when there is none. -/
def findIdxA (lbl : String) : Align → Option Nat
  | [] => none
  | s :: rest =>
      if labelMatches lbl s.name then some 0
      else (findIdxA lbl rest).map (· + 1)

/-- `del temp_a[index]`. -/
def eraseAt : Align → Nat → Align
  | [], _ => []
  | _ :: rest, 0 => rest
  | s :: rest, i + 1 => s :: eraseAt rest i

/-- `temp_a.group(i, group=999)` for a valid index `i`. -/
def setGroup : Align → Nat → Nat → Align
  | [], _, _ => []
  | s :: rest, 0, g => { s with group := g } :: rest
  | s :: rest, i + 1, g => s :: setGroup rest i g

/-- `a.extract(0, n)`: keep the first `n` alignment columns of every
sequence. -/
def extractCols (a : Align) (n : Nat) : Align :=
  a.map (fun s => { s with seq := String.mk (s.seq.data.take n) })

/-- Pruning step for one other outgroup (lines 98-100): find the first
non-strict match and delete it if present. -/
def pruneOne (t : Align) (lbl : String) : Align :=
  match findIdxA lbl t with
  | some i => eraseAt t i
  | none => t

/-- The loop `for otherOutgroup in otherOutgroups:` (lines 97-100). -/
def pruneOthers (others : List String) (t : Align) : Align :=
  others.foldl pruneOne t

/-- The state of `temp_a` after lines 94-100: trim the final codon
(`a.extract(0, len(a.sequence(1)) - 3)`), then remove the first non-strict
match of every other outgroup (`otherOutgroups = outgroup[:]`,
`otherOutgroups.remove(o)`). -/
def workBase (outs : List String) (o : String) (a : Align) : Align :=
  pruneOthers (outs.erase o) (extractCols a (seqLen1 a - 3))

/-- The working alignment used for outgroup `o`'s MK test (lines 94-102):
the pruned `temp_a` with the first match of `o` tagged group 999.  `none` is
the `IndexError` branch: `o` has no non-strict match left, which line 106
turns into `sys.exit()`. -/
def mkWorkingAlign (outs : List String) (o : String) (a : Align) : Option Align :=
  match findIdxA o (workBase outs o a) with
  | some i => some (setGroup (workBase outs o a) i 999)
  | none => none

/-- The loop `for o in outgroup:` (lines 93-109): per outgroup, build the
working alignment, run `polymorphismBPP` on it and store `MK_<o>` and
`NI_<o>`; a missing outgroup is the `sys.exit()` hard stop, modelled as
`Except.error`. -/
def mkEntriesAux (allOuts : List String) (bppF : Align → BPPDict) (a : Align) :
    List String → StatResult → Except Unit StatResult
  | [], d => Except.ok d
  | o :: rest, d =>
      match mkWorkingAlign allOuts o a with
      | none => Except.error ()
      | some w =>
          let b := bppF w
          mkEntriesAux allOuts bppF a rest
            (dinsert (dinsert d ("MK_" ++ o) b.MK) ("NI_" ++ o) b.NI)

/-- `def calc_stats(alignment, outgroup)` (lines 63-110).  `frame` is the
global `args.frame`; `processAlign` and `bppF` are the two external-library
statistics routines; `a0` is the alignment loaded by `from_fasta`.
`Except.error ()` models the `sys.exit()` on a missing outgroup. -/
def calc_stats (frame : Bool) (outgroup : Option (List String))
    (processAlign : Align → PolyDict) (bppF : Align → BPPDict)
    (a0 : Align) : Except Unit StatResult :=
  let a := maskAlign frame a0
  let d := tryStats (processAlign a) []
  if frame ∧ seqLen1 a % 3 ≠ 0 then Except.ok []
  else
    let d2 :=
      if frame then
        let b := bppF a
        dinsert (dinsert d "piN" b.PiNS) "piS" b.PiS
      else d
    match outgroup with
    | none => Except.ok d2
    | some outs => mkEntriesAux outs bppF a outs d2

/-! ## Report writing (`write_outfile`, lines 113-136)

Modelled as the text written to `selectionStats.txt`. -/

/-- Concatenation of a list of strings (the successive `outfile.write`
calls). -/
def concatRows : List String → String
  | [] => ""
  | r :: rest => r ++ concatRows rest

/-- Python `'%s' % v` for a statistic value. -/
def renderVal : Option ℚ → String
  | none => "None"
  | some q => toString q

/-- Reading `s[key]` in `write_outfile`; every non-empty `statDict` produced
by `calc_stats` carries the keys the writer reads. -/
def lookupVal (s : StatResult) (k : String) : Option ℚ :=
  (s.lookup k).getD none

/-- Header row of lines 115-122. -/
def headerLine (frame : Bool) (outgroup : Option (List String)) : String :=
  "Alignment\tTheta\tPi\tTajimasD\tnseff" ++
    (if frame then
      "\tPiN\tPiS" ++
        (match outgroup with
          | some outs =>
              concatRows (outs.map (fun o => "\tMK_" ++ o ++ "\tNI_" ++ o))
          | none => "")
    else "")

/-- One data row of lines 128-135. -/
def rowLine (frame : Bool) (outgroup : Option (List String))
    (nm : String) (s : StatResult) : String :=
  nm ++ "\t" ++ renderVal (lookupVal s "theta") ++ "\t" ++
    renderVal (lookupVal s "pi") ++ "\t" ++
    renderVal (lookupVal s "tajimaD") ++ "\t" ++
    renderVal (lookupVal s "nseff") ++
    (if frame then
      "\t" ++ renderVal (lookupVal s "piN") ++ "\t" ++
        renderVal (lookupVal s "piS") ++
        (match outgroup with
          | some outs =>
              concatRows (outs.map (fun o =>
                "\t" ++ renderVal (lookupVal s ("MK_" ++ o)) ++
                  "\t" ++ renderVal (lookupVal s ("NI_" ++ o))))
          | none => "")
    else "")

/-- `def write_outfile(alignDict, outgroup)`: full text written to
`selectionStats.txt`.  An alignment with an empty `statDict` is skipped
(lines 125-127). -/
def write_outfile (frame : Bool) (outgroup : Option (List String))
    (alignDict : List (String × StatResult)) : String :=
  headerLine frame outgroup ++ "\n" ++
    concatRows (alignDict.map (fun e =>
      if e.2.length = 0 then "" else rowLine frame outgroup e.1 e.2 ++ "\n"))

/-! ## Main block (lines 138-150) -/

/-- Building `alignDict` over the resolved alignments in order; the first
`sys.exit()` aborts the whole run. -/
def build_alignDict (frame : Bool) (outgroup : Option (List String))
    (processAlign : Align → PolyDict) (bppF : Align → BPPDict) :
    List (String × Align) → Except Unit (List (String × StatResult))
  | [] => Except.ok []
  | (nm, al) :: rest =>
      match calc_stats frame outgroup processAlign bppF al with
      | Except.error e => Except.error e
      | Except.ok r =>
          match build_alignDict frame outgroup processAlign bppF rest with
          | Except.error e => Except.error e
          | Except.ok d => Except.ok ((nm, r) :: d)

/-- The whole run: compute every alignment's statistics, then write the
report.  `none` is a run killed by `sys.exit()` before `write_outfile` is
reached — no output file is produced. -/
def runPipeline (frame : Bool) (outgroup : Option (List String))
    (processAlign : Align → PolyDict) (bppF : Align → BPPDict)
    (aligns : List (String × Align)) : Option String :=
  match build_alignDict frame outgroup processAlign bppF aligns with
  | Except.error _ => none
  | Except.ok d => some (write_outfile frame outgroup d)

/-! ## Dictionary and writer lemmas -/

lemma str_data_append (s t : String) : (s ++ t).data = s.data ++ t.data := rfl

lemma str_append_empty (s : String) : s ++ "" = s := by
  cases s with
  | mk d => show String.mk (d ++ []) = String.mk d; rw [List.append_nil]

lemma str_empty_append (s : String) : "" ++ s = s := by
  cases s with
  | mk d => show String.mk ([] ++ d) = String.mk d; rw [List.nil_append]

lemma str_append_assoc (a b c : String) : a ++ b ++ c = a ++ (b ++ c) := by
  cases a with
  | mk d1 =>
      cases b with
      | mk d2 =>
          cases c with
          | mk d3 =>
              show String.mk (d1 ++ d2 ++ d3) = String.mk (d1 ++ (d2 ++ d3))
              rw [List.append_assoc]

lemma isPrefixOf_append_self (l t : List Char) : l.isPrefixOf (l ++ t) = true := by
  rw [List.isPrefixOf_iff_prefix]
  exact List.prefix_append l t

lemma containsKey_dinsert_self (d : StatResult) (k : String) (v : Option ℚ) :
    containsKey (dinsert d k v) k = true := by
  unfold dinsert
  by_cases h : d.any (fun e => e.1 == k)
  · rw [if_pos h]
    obtain ⟨e, he, hek⟩ := List.any_eq_true.mp h
    unfold containsKey
    apply List.any_eq_true.mpr
    refine ⟨(k, v), List.mem_map.mpr ⟨e, he, by simp [hek]⟩, by simp⟩
  · rw [if_neg h]
    unfold containsKey
    apply List.any_eq_true.mpr
    exact ⟨(k, v), by simp, by simp⟩

lemma containsKey_dinsert_of (d : StatResult) (k k' : String) (v : Option ℚ)
    (h : containsKey d k = true) : containsKey (dinsert d k' v) k = true := by
  obtain ⟨e, he, hek⟩ := List.any_eq_true.mp h
  unfold dinsert
  by_cases h' : d.any (fun e => e.1 == k')
  · rw [if_pos h']
    unfold containsKey
    apply List.any_eq_true.mpr
    by_cases hk' : e.1 == k'
    · refine ⟨(k', v), List.mem_map.mpr ⟨e, he, by simp [hk']⟩, ?_⟩
      have h1 : e.1 = k' := by simpa using hk'
      have h2 : e.1 = k := by simpa using hek
      simp [← h1, h2]
    · exact ⟨e, List.mem_map.mpr ⟨e, he, by simp [hk']⟩, hek⟩
  · rw [if_neg h']
    unfold containsKey
    apply List.any_eq_true.mpr
    exact ⟨e, List.mem_append_left _ he, hek⟩

lemma mkEntriesAux_preserves_key (allOuts : List String) (bppF : Align → BPPDict)
    (a : Align) (k : String) :
    ∀ (pending : List String) (d r : StatResult),
      mkEntriesAux allOuts bppF a pending d = Except.ok r →
      containsKey d k = true → containsKey r k = true := by
  intro pending
  induction pending with
  | nil => intro d r h hk; cases h; exact hk
  | cons o rest ih =>
      intro d r h hk
      unfold mkEntriesAux at h
      cases hw : mkWorkingAlign allOuts o a with
      | none => rw [hw] at h; cases h
      | some w =>
          rw [hw] at h
          exact ih _ _ h
            (containsKey_dinsert_of _ _ _ _ (containsKey_dinsert_of _ _ _ _ hk))

lemma mkEntriesAux_has_keys (allOuts : List String) (bppF : Align → BPPDict)
    (a : Align) :
    ∀ (pending : List String) (d r : StatResult),
      mkEntriesAux allOuts bppF a pending d = Except.ok r →
      ∀ o ∈ pending,
        containsKey r ("MK_" ++ o) = true ∧ containsKey r ("NI_" ++ o) = true := by
  intro pending
  induction pending with
  | nil => intro d r _ o ho; cases ho
  | cons o' rest ih =>
      intro d r h o ho
      unfold mkEntriesAux at h
      cases hw : mkWorkingAlign allOuts o' a with
      | none => rw [hw] at h; cases h
      | some w =>
          rw [hw] at h
          rcases List.mem_cons.mp ho with rfl | ho'
          · constructor
            · exact mkEntriesAux_preserves_key allOuts bppF a _ rest _ r h
                (containsKey_dinsert_of _ _ _ _ (containsKey_dinsert_self _ _ _))
            · exact mkEntriesAux_preserves_key allOuts bppF a _ rest _ r h
                (containsKey_dinsert_self _ _ _)
          · exact ih _ _ h o ho'

lemma concatRows_all_empty :
    ∀ l : List String, (∀ s ∈ l, s = "") → concatRows l = ""
  | [], _ => rfl
  | s :: rest, h => by
      rw [concatRows, h s (by simp),
        concatRows_all_empty rest (fun x hx => h x (by simp [hx]))]
      rfl

lemma concatRows_append : ∀ l₁ l₂ : List String,
    concatRows (l₁ ++ l₂) = concatRows l₁ ++ concatRows l₂
  | [], l₂ => by
      rw [List.nil_append]
      show concatRows l₂ = "" ++ concatRows l₂
      rw [str_empty_append]
  | s :: rest, l₂ => by
      rw [List.cons_append, concatRows, concatRows,
        concatRows_append rest l₂, str_append_assoc]

/-! ## Claim theorems about `calc_stats` and `write_outfile` -/

lemma seqLen1_maskAlign (frame : Bool) (a0 : Align) :
    seqLen1 (maskAlign frame a0) = seqLen1 a0 := by
  cases frame
  · rfl
  · show seqLen1 (a0.map _) = seqLen1 a0
    unfold seqLen1
    rw [List.getElem?_map]
    cases a0[1]? with
    | none => rfl
    | some s => simp [replace_stop_length]

/-- C6: the `TypeError` raised when the library returns `None` for `thetaW`,
`Pi` or `lseff` is caught: `theta`, `pi` and `tajimaD` all become `None`
while `nseff` is still taken from the same `polyDict`; otherwise `theta` and
`pi` are the raw statistic divided by the effective length `lseff` (assumed
nonzero), `tajimaD` is the raw `D`, and no error escapes `calc_stats`. -/
theorem C6_typeerror_caught (p : PolyDict) :
    ((p.thetaW = none ∨ p.piStat = none ∨ p.lseff = none) →
      (tryStats p []).lookup "theta" = some none ∧
      (tryStats p []).lookup "pi" = some none ∧
      (tryStats p []).lookup "tajimaD" = some none ∧
      (tryStats p []).lookup "nseff" = some p.nseff) ∧
    (∀ tw pv ls, p.thetaW = some tw → p.piStat = some pv → p.lseff = some ls →
      ls ≠ 0 →
      (tryStats p []).lookup "theta" = some (some (tw / ls)) ∧
      (tryStats p []).lookup "pi" = some (some (pv / ls)) ∧
      (tryStats p []).lookup "tajimaD" = some p.D ∧
      (tryStats p []).lookup "nseff" = some p.nseff) := by
  obtain ⟨tw0, pv0, d0, ls0, ns0⟩ := p
  constructor
  · intro h
    cases tw0 <;> cases pv0 <;> cases ls0 <;>
      first
        | exact ⟨rfl, rfl, rfl, rfl⟩
        | simp at h
  · rintro tw pv ls rfl rfl rfl _
    exact ⟨rfl, rfl, rfl, rfl⟩

/-- Concrete instantiation of `C6_typeerror_caught`: all-`None` input yields
`None` markers with `nseff` preserved; fully defined input yields the
normalized ratios. -/
theorem C6_typeerror_caught_witness :
    (tryStats ⟨none, none, none, none, some 5⟩ []).lookup "theta" = some none ∧
    (tryStats ⟨none, none, none, none, some 5⟩ []).lookup "nseff" = some (some 5) ∧
    (tryStats ⟨some 1, some 2, some 3, some 4, some 5⟩ []).lookup "theta"
      = some (some (1 / 4)) ∧
    (tryStats ⟨some 1, some 2, some 3, some 4, some 5⟩ []).lookup "pi"
      = some (some (2 / 4)) := by
  have h1 := (C6_typeerror_caught ⟨none, none, none, none, some 5⟩).1
    (Or.inl rfl)
  have h2 := (C6_typeerror_caught ⟨some 1, some 2, some 3, some 4, some 5⟩).2
    1 2 4 rfl rfl rfl (by norm_num)
  exact ⟨h1.1, h1.2.2.2, h2.1, h2.2.1⟩

/-- C2: with frame mode on, an alignment whose (index-1) sequence length is
not divisible by 3 makes `calc_stats` return the empty `statDict` without
raising — no `piN`/`piS`/`MK`/`NI` entry is produced and the run continues —
and `write_outfile` writes no row for an alignment with an empty result. -/
theorem C2_out_of_frame_rejected (outs : Option (List String))
    (pA : Align → PolyDict) (bppF : Align → BPPDict) (a0 : Align)
    (s1 : SeqEntry) (h1 : a0[1]? = some s1) (h3 : s1.seq.length % 3 ≠ 0) :
    calc_stats true outs pA bppF a0 = Except.ok [] ∧
    ∀ (fr : Bool) (og : Option (List String))
      (pre post : List (String × StatResult)) (nm : String),
      write_outfile fr og (pre ++ (nm, ([] : StatResult)) :: post)
        = write_outfile fr og (pre ++ post) := by
  constructor
  · have hl : seqLen1 (maskAlign true a0) = s1.seq.length := by
      rw [seqLen1_maskAlign]
      simp [seqLen1, h1]
    simp [calc_stats, hl, h3]
  · intro fr og pre post nm
    simp only [write_outfile, List.map_append, List.map_cons]
    rw [concatRows_append, concatRows_append]
    simp [concatRows, str_append_empty]

/-- Concrete instantiation of `C2_out_of_frame_rejected`: a 2-sequence
alignment of length 4 in frame mode yields an empty result, and the writer
drops the corresponding row. -/
theorem C2_out_of_frame_rejected_witness :
    calc_stats true none (fun _ => ⟨none, none, none, none, none⟩)
        (fun _ => ⟨none, none, none, none⟩)
        [⟨"s1", "AAAA", 0⟩, ⟨"s2", "AAAA", 0⟩] = Except.ok [] ∧
    write_outfile false none
        ([("g", [("theta", none)])] ++ ("h", ([] : StatResult)) :: [])
      = write_outfile false none ([("g", [("theta", none)])] ++ []) := by
  have h := C2_out_of_frame_rejected none
    (fun _ => ⟨none, none, none, none, none⟩) (fun _ => ⟨none, none, none, none⟩)
    [⟨"s1", "AAAA", 0⟩, ⟨"s2", "AAAA", 0⟩] ⟨"s2", "AAAA", 0⟩ rfl (by decide)
  exact ⟨h.1, h.2 false none [("g", [("theta", none)])] [] "h"⟩

/-- C5: the claim that no MK/NI value is computed when frame mode is off is
false — line 92's `if outgroup is not None:` is not nested under line 84's
`if args.frame:` — as shown by a frame-off run over one outgroup whose
result dictionary carries the key `MK_og`. -/
theorem C5_counterexample :
    containsKey
      ((calc_stats false (some ["og"]) (fun _ => ⟨none, none, none, none, none⟩)
          (fun _ => ⟨none, none, none, none⟩)
          [⟨"og", "AAATTT", 0⟩, ⟨"s1", "AAATTT", 0⟩, ⟨"s2", "AAATTT", 0⟩]).toOption.getD [])
        "MK_og" = true := by decide

lemma calc_stats_false_some (pA : Align → PolyDict) (bppF : Align → BPPDict)
    (a0 : Align) (outs : List String) :
    calc_stats false (some outs) pA bppF a0
      = mkEntriesAux outs bppF a0 outs (tryStats (pA a0) []) := rfl

/-- C5 (amended): stop-codon masking and piN/piS are gated on the frame flag `-f`,
but MK/NI values are computed for every supplied outgroup regardless of the
frame flag; only their *reporting* is gated: with frame off every completed
run's result contains `MK_<o>` and `NI_<o>` for each outgroup `o`, while the
written report is identical to one produced with no outgroups at all. -/
theorem C5_mk_gating_amended :
    (∀ (pA : Align → PolyDict) (bppF : Align → BPPDict) (a : Align)
        (outs : List String) (r : StatResult),
        calc_stats false (some outs) pA bppF a = Except.ok r →
        ∀ o ∈ outs,
          containsKey r ("MK_" ++ o) = true ∧ containsKey r ("NI_" ++ o) = true) ∧
    (∀ (outs : List String) (d : List (String × StatResult)),
        write_outfile false (some outs) d = write_outfile false none d) := by
  constructor
  · intro pA bppF a outs r h o ho
    rw [calc_stats_false_some] at h
    exact mkEntriesAux_has_keys outs bppF a outs _ r h o ho
  · intro outs d
    rfl

/-- Concrete instantiation of `C5_mk_gating_amended` at a frame-off run with
one outgroup. -/
theorem C5_mk_gating_amended_witness :
    containsKey [("theta", none), ("pi", none), ("tajimaD", none),
      ("nseff", some 5), ("MK_og", none), ("NI_og", none)] "NI_og" = true ∧
    write_outfile false (some ["og"]) [("g", [("theta", none)])]
      = write_outfile false none [("g", [("theta", none)])] := by
  have h1 := C5_mk_gating_amended.1 (fun _ => ⟨none, none, none, none, some 5⟩)
    (fun _ => ⟨none, none, none, none⟩) [⟨"og", "AAATTT", 0⟩, ⟨"s1", "AAATTT", 0⟩]
    ["og"] [("theta", none), ("pi", none), ("tajimaD", none),
      ("nseff", some 5), ("MK_og", none), ("NI_og", none)]
    rfl "og" (by decide)
  exact ⟨h1.2, C5_mk_gating_amended.2 ["og"] [("g", [("theta", none)])]⟩

/-- C10: the report writer always emits the header row first (the header line
is a prefix of the output for every input), and when every alignment was
rejected (all `statDict`s empty) or no alignments were found, the output is
exactly the header-only file. -/
theorem C10_header_always (frame : Bool) (og : Option (List String)) :
    (∀ d : List (String × StatResult),
      (headerLine frame og ++ "\n").data.isPrefixOf
        (write_outfile frame og d).data = true) ∧
    (∀ d : List (String × StatResult),
      (∀ e ∈ d, e.2 = ([] : StatResult)) →
      write_outfile frame og d = headerLine frame og ++ "\n") := by
  constructor
  · intro d
    rw [write_outfile, str_data_append]
    exact isPrefixOf_append_self _ _
  · intro d hd
    rw [write_outfile, concatRows_all_empty, str_append_empty]
    intro s hs
    obtain ⟨e, he, hes⟩ := List.mem_map.mp hs
    rw [hd e he] at hes
    simpa using hes.symm

/-- Concrete instantiation of `C10_header_always`: frame-off, no outgroups,
two rejected alignments give a header-only report. -/
theorem C10_header_always_witness :
    (headerLine false none ++ "\n").data.isPrefixOf
      (write_outfile false none [("g", []), ("h", [])]).data = true ∧
    write_outfile false none [("g", []), ("h", [])]
      = headerLine false none ++ "\n" := by
  exact ⟨(C10_header_always false none).1 [("g", []), ("h", [])],
    (C10_header_always false none).2 [("g", []), ("h", [])] (by decide)⟩

/-! ## Outgroup pruning and grouping lemmas -/

/-- Number of sequences of `t` whose name non-strictly matches `lbl`. -/
def countMatches (lbl : String) (t : Align) : Nat :=
  (t.filter (fun s => labelMatches lbl s.name)).length

lemma countMatches_cons (lbl : String) (s : SeqEntry) (rest : Align) :
    countMatches lbl (s :: rest) =
      (if labelMatches lbl s.name then 1 else 0) + countMatches lbl rest := by
  by_cases h : labelMatches lbl s.name
  · simp [countMatches, List.filter_cons, h]
    omega
  · simp [countMatches, List.filter_cons, h]

lemma countMatches_eraseAt_le :
    ∀ (t : Align) (i : Nat) (lbl : String),
      countMatches lbl (eraseAt t i) ≤ countMatches lbl t
  | [], _, _ => le_refl _
  | s :: rest, 0, lbl => by
      show countMatches lbl rest ≤ countMatches lbl (s :: rest)
      rw [countMatches_cons]
      omega
  | s :: rest, i + 1, lbl => by
      show countMatches lbl (s :: eraseAt rest i) ≤ countMatches lbl (s :: rest)
      rw [countMatches_cons, countMatches_cons]
      have := countMatches_eraseAt_le rest i lbl
      omega

lemma findIdxA_none_count :
    ∀ (t : Align) (lbl : String), findIdxA lbl t = none → countMatches lbl t = 0
  | [], _, _ => rfl
  | s :: rest, lbl, h => by
      simp only [findIdxA] at h
      by_cases hm : labelMatches lbl s.name
      · rw [if_pos hm] at h; cases h
      · rw [if_neg hm] at h
        have hrest : findIdxA lbl rest = none := by
          cases hr : findIdxA lbl rest with
          | none => rfl
          | some j => rw [hr] at h; cases h
        rw [countMatches_cons, if_neg hm,
          findIdxA_none_count rest lbl hrest]

lemma findIdxA_some_count :
    ∀ (t : Align) (lbl : String) (i : Nat), findIdxA lbl t = some i →
      countMatches lbl (eraseAt t i) = countMatches lbl t - 1 ∧
        0 < countMatches lbl t
  | [], _, _, h => by cases h
  | s :: rest, lbl, i, h => by
      simp only [findIdxA] at h
      by_cases hm : labelMatches lbl s.name
      · rw [if_pos hm] at h
        cases h
        rw [countMatches_cons, if_pos hm]
        constructor
        · show countMatches lbl rest = 1 + countMatches lbl rest - 1
          omega
        · omega
      · rw [if_neg hm] at h
        cases hr : findIdxA lbl rest with
        | none => rw [hr] at h; cases h
        | some j =>
            rw [hr] at h
            have hj : i = j + 1 := by simpa using h.symm
            subst hj
            obtain ⟨ih1, ih2⟩ := findIdxA_some_count rest lbl j hr
            constructor
            · show countMatches lbl (s :: eraseAt rest j)
                = countMatches lbl (s :: rest) - 1
              rw [countMatches_cons, if_neg hm, countMatches_cons, if_neg hm, ih1]
              omega
            · rw [countMatches_cons, if_neg hm]
              omega

lemma pruneOne_count_le (t : Align) (lbl lbl2 : String) :
    countMatches lbl2 (pruneOne t lbl) ≤ countMatches lbl2 t := by
  unfold pruneOne
  cases h : findIdxA lbl t with
  | none => exact le_refl _
  | some i => exact countMatches_eraseAt_le t i lbl2

lemma pruneOne_count_self (t : Align) (lbl : String)
    (h : countMatches lbl t ≤ 1) : countMatches lbl (pruneOne t lbl) = 0 := by
  unfold pruneOne
  cases hf : findIdxA lbl t with
  | none => exact findIdxA_none_count t lbl hf
  | some i =>
      show countMatches lbl (eraseAt t i) = 0
      obtain ⟨h1, h2⟩ := findIdxA_some_count t lbl i hf
      omega

lemma pruneOthers_count_le :
    ∀ (others : List String) (t : Align) (lbl : String),
      countMatches lbl (pruneOthers others t) ≤ countMatches lbl t
  | [], _, _ => le_refl _
  | o :: rest, t, lbl => by
      show countMatches lbl (pruneOthers rest (pruneOne t o)) ≤ _
      exact le_trans (pruneOthers_count_le rest (pruneOne t o) lbl)
        (pruneOne_count_le t o lbl)

lemma pruneOthers_count_zero :
    ∀ (others : List String) (t : Align),
      (∀ x ∈ others, countMatches x t ≤ 1) →
      ∀ x ∈ others, countMatches x (pruneOthers others t) = 0
  | [], _, _, x, hx => absurd hx (List.not_mem_nil x)
  | o :: rest, t, h, x, hx => by
      show countMatches x (pruneOthers rest (pruneOne t o)) = 0
      rcases List.mem_cons.mp hx with rfl | hx'
      · have h0 : countMatches x (pruneOne t x) = 0 :=
          pruneOne_count_self t x (h x hx)
        have hle := pruneOthers_count_le rest (pruneOne t x) x
        omega
      · exact pruneOthers_count_zero rest (pruneOne t o)
          (fun y hy => le_trans (pruneOne_count_le t o y) (h y (by simp [hy])))
          x hx'

lemma countMatches_setGroup :
    ∀ (t : Align) (i g : Nat) (lbl : String),
      countMatches lbl (setGroup t i g) = countMatches lbl t
  | [], _, _, _ => rfl
  | s :: rest, 0, g, lbl => by
      show countMatches lbl ({ s with group := g } :: rest)
        = countMatches lbl (s :: rest)
      rw [countMatches_cons, countMatches_cons]
  | s :: rest, i + 1, g, lbl => by
      show countMatches lbl (s :: setGroup rest i g) = countMatches lbl (s :: rest)
      rw [countMatches_cons, countMatches_cons,
        countMatches_setGroup rest i g lbl]

lemma countMatches_extractCols :
    ∀ (a : Align) (n : Nat) (lbl : String),
      countMatches lbl (extractCols a n) = countMatches lbl a
  | [], _, _ => rfl
  | s :: rest, n, lbl => by
      show countMatches lbl
          ({ s with seq := String.mk (s.seq.data.take n) } :: extractCols rest n)
        = countMatches lbl (s :: rest)
      rw [countMatches_cons, countMatches_cons,
        countMatches_extractCols rest n lbl]

lemma findIdxA_some_get :
    ∀ (t : Align) (lbl : String) (i : Nat), findIdxA lbl t = some i →
      ∃ s, t[i]? = some s ∧ labelMatches lbl s.name = true
  | [], _, _, h => by cases h
  | s :: rest, lbl, i, h => by
      simp only [findIdxA] at h
      by_cases hm : labelMatches lbl s.name
      · rw [if_pos hm] at h
        cases h
        exact ⟨s, by simp, hm⟩
      · rw [if_neg hm] at h
        cases hr : findIdxA lbl rest with
        | none => rw [hr] at h; cases h
        | some j =>
            rw [hr] at h
            have hj : i = j + 1 := by simpa using h.symm
            subst hj
            obtain ⟨s', hs', hm'⟩ := findIdxA_some_get rest lbl j hr
            exact ⟨s', by simpa using hs', hm'⟩

lemma setGroup_getElem? :
    ∀ (t : Align) (i g : Nat),
      (setGroup t i g)[i]? = (t[i]?).map (fun s => { s with group := g })
  | [], i, _ => by cases i <;> rfl
  | x :: rest, 0, g => by
      show ({ x with group := g } :: rest)[0]? = ((x :: rest)[0]?).map _
      simp
  | s :: rest, i + 1, g => by
      show (s :: setGroup rest i g)[i + 1]? = ((s :: rest)[i + 1]?).map _
      simpa using setGroup_getElem? rest i g

lemma mem_setGroup :
    ∀ (t : Align) (i g : Nat) (s : SeqEntry),
      s ∈ setGroup t i g → s.group = g ∨ s ∈ t
  | [], _, _, _, h => by cases h
  | x :: rest, 0, g, s, h => by
      rcases List.mem_cons.mp h with rfl | h'
      · exact Or.inl rfl
      · exact Or.inr (List.mem_cons.mpr (Or.inr h'))
  | x :: rest, i + 1, g, s, h => by
      rcases List.mem_cons.mp h with rfl | h'
      · exact Or.inr (List.mem_cons_self _ _)
      · rcases mem_setGroup rest i g s h' with h0 | h0
        · exact Or.inl h0
        · exact Or.inr (List.mem_cons.mpr (Or.inr h0))

lemma mem_eraseAt :
    ∀ (t : Align) (i : Nat) (s : SeqEntry), s ∈ eraseAt t i → s ∈ t
  | [], _, _, h => by cases h
  | _ :: _, 0, _, h => List.mem_cons.mpr (Or.inr h)
  | x :: rest, i + 1, s, h => by
      rcases List.mem_cons.mp h with rfl | h'
      · exact List.mem_cons_self _ _
      · exact List.mem_cons.mpr (Or.inr (mem_eraseAt rest i s h'))

lemma groups_zero_pruneOne (t : Align) (lbl : String)
    (h0 : ∀ s ∈ t, s.group = 0) : ∀ s ∈ pruneOne t lbl, s.group = 0 := by
  intro s hs
  unfold pruneOne at hs
  cases hf : findIdxA lbl t with
  | none => rw [hf] at hs; exact h0 s hs
  | some i => rw [hf] at hs; exact h0 s (mem_eraseAt t i s hs)

lemma groups_zero_pruneOthers :
    ∀ (others : List String) (t : Align),
      (∀ s ∈ t, s.group = 0) → ∀ s ∈ pruneOthers others t, s.group = 0
  | [], _, h0 => h0
  | o :: rest, t, h0 => by
      show ∀ s ∈ pruneOthers rest (pruneOne t o), s.group = 0
      exact groups_zero_pruneOthers rest (pruneOne t o)
        (groups_zero_pruneOne t o h0)

lemma groups_zero_extractCols (a : Align) (n : Nat)
    (h0 : ∀ s ∈ a, s.group = 0) : ∀ s ∈ extractCols a n, s.group = 0 := by
  intro s hs
  obtain ⟨x, hx, hxs⟩ := List.mem_map.mp hs
  cases hxs
  exact h0 x hx

lemma groups_zero_workBase (outs : List String) (o : String) (a : Align)
    (h0 : ∀ s ∈ a, s.group = 0) : ∀ s ∈ workBase outs o a, s.group = 0 :=
  groups_zero_pruneOthers (outs.erase o) _
    (groups_zero_extractCols a _ h0)

lemma filter999_eq_nil :
    ∀ t : Align, (∀ s ∈ t, s.group = 0) →
      t.filter (fun s => s.group == 999) = []
  | [], _ => rfl
  | s :: rest, h => by
      have hs : s.group = 0 := h s (List.mem_cons_self _ _)
      rw [List.filter_cons]
      simp [hs, filter999_eq_nil rest (fun x hx => h x (by simp [hx]))]

lemma filter999_setGroup :
    ∀ (t : Align) (i : Nat), (∀ s ∈ t, s.group = 0) → i < t.length →
      ((setGroup t i 999).filter (fun s => s.group == 999)).length = 1
  | [], _, _, hi => by simp at hi
  | s :: rest, 0, h0, _ => by
      show (({ s with group := 999 } :: rest).filter _).length = 1
      rw [List.filter_cons]
      simp [filter999_eq_nil rest (fun x hx => h0 x (by simp [hx]))]
  | s :: rest, i + 1, h0, hi => by
      show ((s :: setGroup rest i 999).filter _).length = 1
      rw [List.filter_cons]
      have hs : s.group = 0 := h0 s (by simp)
      simp [hs, filter999_setGroup rest i (fun x hx => h0 x (by simp [hx]))
        (by simpa using hi)]

lemma eraseAt_length :
    ∀ (t : Align) (i : Nat), t.length ≤ (eraseAt t i).length + 1
  | [], _ => by simp [eraseAt]
  | _ :: rest, 0 => by show rest.length + 1 ≤ rest.length + 1; omega
  | s :: rest, i + 1 => by
      show rest.length + 1 ≤ (s :: eraseAt rest i).length + 1
      have := eraseAt_length rest i
      simp only [List.length_cons]
      omega

/-- C3: the claim that the working alignment for outgroup `o` contains no
sequence labeled with any other outgroup fails when another outgroup label
matches two sequences: only the first non-strict match is deleted.  Here the
alignment has two sequences named `o2`; the working alignment built for
`o1`'s MK test still contains one of them. -/
theorem C3_counterexample :
    ((mkWorkingAlign ["o1", "o2"] "o1"
        [⟨"o1", "AAATTT", 0⟩, ⟨"o2", "AAATTT", 0⟩, ⟨"o2", "AAATTT", 0⟩,
          ⟨"s1", "AAATTT", 0⟩]).getD []).any
      (fun s => labelMatches "o2" s.name) = true ∧
    mkWorkingAlign ["o1", "o2"] "o1"
        [⟨"o1", "AAATTT", 0⟩, ⟨"o2", "AAATTT", 0⟩, ⟨"o2", "AAATTT", 0⟩,
          ⟨"s1", "AAATTT", 0⟩] ≠ none := by
  exact ⟨by decide, by decide⟩

/-- C3 (amended): for each outgroup `o`, provided every other outgroup label
matches at most one sequence of the alignment, the working alignment used for
`o`'s MK test contains no sequence matching any other outgroup label, and it
contains a sequence matching `o` that is assigned to the distinguished
outgroup partition (group 999). -/
theorem C3_mk_exclusion_amended (outs : List String) (o : String) (a : Align)
    (w : Align)
    (hcount : ∀ o' ∈ outs.erase o, countMatches o' a ≤ 1)
    (hw : mkWorkingAlign outs o a = some w) :
    (∀ o' ∈ outs.erase o, countMatches o' w = 0) ∧
    w.any (fun s => labelMatches o s.name && (s.group == 999)) = true := by
  unfold mkWorkingAlign at hw
  cases hf : findIdxA o (workBase outs o a) with
  | none => rw [hf] at hw; cases hw
  | some i =>
      rw [hf] at hw
      have hw' : w = setGroup (workBase outs o a) i 999 :=
        (Option.some.inj hw).symm
      subst hw'
      constructor
      · intro o' ho'
        rw [countMatches_setGroup]
        unfold workBase
        exact pruneOthers_count_zero (outs.erase o) _
          (fun x hx => by
            rw [countMatches_extractCols]
            exact hcount x hx) o' ho'
      · obtain ⟨s, hs, hm⟩ := findIdxA_some_get _ o i hf
        have hget := setGroup_getElem? (workBase outs o a) i 999
        rw [hs] at hget
        apply List.any_eq_true.mpr
        exact ⟨{ s with group := 999 }, List.getElem?_mem hget, by simp [hm]⟩

/-- Concrete instantiation of `C3_mk_exclusion_amended`: alignment
`[o1, x, o2]`, outgroups `[o1, o2]`, tested outgroup `o1`. -/
theorem C3_mk_exclusion_amended_witness :
    countMatches "o2"
      [⟨"o1", "AAA", 999⟩, ⟨"x", "AAA", 0⟩] = 0 ∧
    ([⟨"o1", "AAA", 999⟩, ⟨"x", "AAA", 0⟩] : Align).any
      (fun s => labelMatches "o1" s.name && (s.group == 999)) = true := by
  have h := C3_mk_exclusion_amended ["o1", "o2"] "o1"
    [⟨"o1", "AAATTT", 0⟩, ⟨"x", "AAATTT", 0⟩, ⟨"o2", "AAATTT", 0⟩]
    [⟨"o1", "AAA", 999⟩, ⟨"x", "AAA", 0⟩] (by decide) rfl
  exact ⟨h.1 "o2" (by decide), h.2⟩

/-- C9: each pruning step removes at most one sequence (only the first
non-strict match of the other-outgroup label is deleted), and in the working
alignment exactly one sequence carries the outgroup partition tag 999 — any
further sequences matching the same label keep their ingroup tag 0. -/
theorem C9_single_removal_single_tag :
    (∀ (lbl : String) (t : Align), t.length ≤ (pruneOne t lbl).length + 1) ∧
    (∀ (outs : List String) (o : String) (a : Align) (w : Align),
        (∀ s ∈ a, s.group = 0) → mkWorkingAlign outs o a = some w →
        ((w.filter (fun s => s.group == 999)).length = 1 ∧
          ∀ s ∈ w, s.group = 999 ∨ s.group = 0)) := by
  constructor
  · intro lbl t
    unfold pruneOne
    cases hf : findIdxA lbl t with
    | none =>
        show t.length ≤ t.length + 1
        omega
    | some i =>
        show t.length ≤ (eraseAt t i).length + 1
        exact eraseAt_length t i
  · intro outs o a w h0 hw
    unfold mkWorkingAlign at hw
    cases hf : findIdxA o (workBase outs o a) with
    | none => rw [hf] at hw; cases hw
    | some i =>
        rw [hf] at hw
        have hw' : w = setGroup (workBase outs o a) i 999 :=
          (Option.some.inj hw).symm
        subst hw'
        have hz : ∀ s ∈ workBase outs o a, s.group = 0 :=
          groups_zero_workBase outs o a h0
        constructor
        · obtain ⟨s, hs, _⟩ := findIdxA_some_get _ o i hf
          have hi : i < (workBase outs o a).length :=
            (List.getElem?_eq_some.mp hs).1
          exact filter999_setGroup _ i hz hi
        · intro s hs
          rcases mem_setGroup _ i 999 s hs with h | h
          · exact Or.inl h
          · exact Or.inr (hz s h)

/-- Concrete instantiation of `C9_single_removal_single_tag` at the same
3-sequence alignment used for C3. -/
theorem C9_single_removal_single_tag_witness :
    ([⟨"o1", "AAATTT", 0⟩, ⟨"x", "AAATTT", 0⟩] : Align).length
      ≤ (pruneOne [⟨"o1", "AAATTT", 0⟩, ⟨"x", "AAATTT", 0⟩] "o1").length + 1 ∧
    (([⟨"o1", "AAA", 999⟩, ⟨"x", "AAA", 0⟩] : Align).filter
        (fun s => s.group == 999)).length = 1 := by
  have h2 := C9_single_removal_single_tag.2 ["o1", "o2"] "o1"
    [⟨"o1", "AAATTT", 0⟩, ⟨"x", "AAATTT", 0⟩, ⟨"o2", "AAATTT", 0⟩]
    [⟨"o1", "AAA", 999⟩, ⟨"x", "AAA", 0⟩] (by decide) rfl
  exact ⟨C9_single_removal_single_tag.1 "o1"
    [⟨"o1", "AAATTT", 0⟩, ⟨"x", "AAATTT", 0⟩], h2.1⟩

/-! ## The missing-outgroup hard stop (C4) -/

lemma mkEntriesAux_error (allOuts : List String) (bppF : Align → BPPDict)
    (a : Align) :
    ∀ (pending : List String) (d : StatResult) (o : String),
      o ∈ pending → mkWorkingAlign allOuts o a = none →
      mkEntriesAux allOuts bppF a pending d = Except.error () := by
  intro pending
  induction pending with
  | nil => intro d o ho; cases ho
  | cons o2 rest ih =>
      intro d o ho hmiss
      rcases List.mem_cons.mp ho with rfl | ho2
      · show (match mkWorkingAlign allOuts o a with
            | none => Except.error ()
            | some w => mkEntriesAux allOuts bppF a rest
                (dinsert (dinsert d ("MK_" ++ o) (bppF w).MK)
                  ("NI_" ++ o) (bppF w).NI)) = Except.error ()
        rw [hmiss]
      · show (match mkWorkingAlign allOuts o2 a with
            | none => Except.error ()
            | some w => mkEntriesAux allOuts bppF a rest
                (dinsert (dinsert d ("MK_" ++ o2) (bppF w).MK)
                  ("NI_" ++ o2) (bppF w).NI)) = Except.error ()
        cases hw : mkWorkingAlign allOuts o2 a with
        | none => rfl
        | some w => exact ih _ o ho2 hmiss

lemma build_ok_member (frame : Bool) (outgroup : Option (List String))
    (pA : Align → PolyDict) (bppF : Align → BPPDict) :
    ∀ (aligns : List (String × Align)) (D : List (String × StatResult)),
      build_alignDict frame outgroup pA bppF aligns = Except.ok D →
      ∀ p ∈ aligns, ∃ r, calc_stats frame outgroup pA bppF p.2 = Except.ok r := by
  intro aligns
  induction aligns with
  | nil => intro D _ p hp; cases hp
  | cons q rest ih =>
      intro D h p hp
      obtain ⟨nm, al⟩ := q
      unfold build_alignDict at h
      cases hc : calc_stats frame outgroup pA bppF al with
      | error e => rw [hc] at h; cases h
      | ok r =>
          rw [hc] at h
          cases hb : build_alignDict frame outgroup pA bppF rest with
          | error e => rw [hb] at h; cases h
          | ok D2 =>
              rcases List.mem_cons.mp hp with rfl | hp2
              · exact ⟨r, hc⟩
              · exact ih D2 hb p hp2

/-- C4: when a supplied outgroup has no non-strict match left in the pruned
working alignment of some processed alignment (and that alignment passed the
frame check, so the MK loop is reached), the run hits `sys.exit()`:
`runPipeline` produces no output text at all — nothing is written for
alignments or outgroups already processed. -/
theorem C4_missing_outgroup_no_output (frame : Bool) (outs : List String)
    (pA : Align → PolyDict) (bppF : Align → BPPDict)
    (aligns : List (String × Align)) (nm : String) (al : Align) (o : String)
    (hmem : (nm, al) ∈ aligns) (ho : o ∈ outs)
    (hframe : frame = false ∨ seqLen1 (maskAlign frame al) % 3 = 0)
    (hmiss : mkWorkingAlign outs o (maskAlign frame al) = none) :
    runPipeline frame (some outs) pA bppF aligns = none := by
  have hcond : ¬(frame ∧ seqLen1 (maskAlign frame al) % 3 ≠ 0) := by
    rcases hframe with h | h
    · subst h; simp
    · intro hc; exact hc.2 h
  have hcs : calc_stats frame (some outs) pA bppF al = Except.error () := by
    simp only [calc_stats]
    rw [if_neg hcond]
    exact mkEntriesAux_error outs bppF (maskAlign frame al) outs _ o ho hmiss
  unfold runPipeline
  cases hb : build_alignDict frame (some outs) pA bppF aligns with
  | error e => rfl
  | ok D =>
      exfalso
      obtain ⟨r, hr⟩ :=
        build_ok_member frame (some outs) pA bppF aligns D hb (nm, al) hmem
      rw [hcs] at hr
      cases hr

/-- Concrete instantiation of `C4_missing_outgroup_no_output`: outgroup `og`
matches no sequence name, so the run writes nothing. -/
theorem C4_missing_outgroup_no_output_witness :
    runPipeline false (some ["og"]) (fun _ => ⟨none, none, none, none, none⟩)
      (fun _ => ⟨none, none, none, none⟩)
      [("g", [⟨"s1", "AAATTT", 0⟩, ⟨"s2", "AAATTT", 0⟩])] = none := by
  exact C4_missing_outgroup_no_output false ["og"]
    (fun _ => ⟨none, none, none, none, none⟩) (fun _ => ⟨none, none, none, none⟩)
    [("g", [⟨"s1", "AAATTT", 0⟩, ⟨"s2", "AAATTT", 0⟩])]
    "g" [⟨"s1", "AAATTT", 0⟩, ⟨"s2", "AAATTT", 0⟩] "og"
    (by decide) (by decide) (Or.inl rfl) (by decide)

/-! ## Input resolution (main block, lines 141-148)

`glob.glob(args.directory + '*.fasta')` itself is a filesystem call, so
directory mode takes the list of matched paths as input; the name
computation (`os.path.splitext`, `str.replace`) is embedded on path
strings. -/

/-- `p.rfind(c)`: highest index of `c` in the character list, `-1` when
absent. -/
def rfindPos (c : Char) : List Char → Int
  | [] => -1
  | x :: rest =>
      if rfindPos c rest ≥ 0 then rfindPos c rest + 1
      else if x = c then 0 else -1

/-- Iteration of the `while filenameIndex < dotIndex` loop of
`posixpath.splitext`: scan `hi - lo` positions from `i` for a non-dot
character. -/
def scanGo (l : List Char) : Nat → Nat → Bool
  | 0, _ => false
  | n + 1, i => if l.getD i '.' ≠ '.' then true else scanGo l n (i + 1)

/-- Is there a non-dot character at an index in `[lo, hi)`? -/
def scanNonDot (l : List Char) (lo hi : Nat) : Bool :=
  scanGo l (hi - lo) lo

/-- `os.path.splitext(p)[0]` on POSIX, character-list level: cut at the last
dot when it comes after the last separator and the base name does not consist
of leading dots only. -/
def splitextRootL (l : List Char) : List Char :=
  if rfindPos '/' l < rfindPos '.' l ∧
      scanNonDot l (rfindPos '/' l + 1).toNat (rfindPos '.' l).toNat then
    l.take (rfindPos '.' l).toNat
  else l

/-- `os.path.splitext(p)[0]`. -/
def splitextRoot (p : String) : String :=
  String.mk (splitextRootL p.data)

/-- Work loop of `str.replace(old, '')` for a string of length at most
`fuel`: delete every non-overlapping occurrence left to right. -/
def removeAllOccAux (pat : List Char) : Nat → List Char → List Char
  | 0, l => l
  | _ + 1, [] => []
  | fuel + 1, c :: rest =>
      if pat ≠ [] ∧ pat.isPrefixOf (c :: rest) then
        removeAllOccAux pat fuel ((c :: rest).drop pat.length)
      else c :: removeAllOccAux pat fuel rest

/-- Python `s.replace(old, '')`. -/
def removeAllOcc (pat l : List Char) : List Char :=
  removeAllOccAux pat l.length l

/-- Single-file mode (lines 147-148):
`alignName = os.path.splitext(args.alignment)[0]`. -/
def singleAlignName (p : String) : String := splitextRoot p

/-- Directory mode (line 143):
`alignName = os.path.splitext(align)[0].replace(args.directory, "")`. -/
def dirAlignName (dir p : String) : String :=
  String.mk (removeAllOcc dir.data (splitextRoot p).data)

/-- Single-file mode produces the one-entry mapping of line 148. -/
def resolveSingle (p : String) : List (String × String) :=
  [(singleAlignName p, p)]

/-- Directory mode maps every glob match to its entry (lines 142-144). -/
def resolveDir (dir : String) (globMatches : List String) :
    List (String × String) :=
  globMatches.map (fun p => (dirAlignName dir p, p))

/-- Modelled from the spec: "alignment name (file name without extension and
without directory prefix)" — the base name after the last path separator with
its extension split off.  Used only to compare the code's naming against the
spec's words. -/
def specAlignName (p : String) : String :=
  splitextRoot (String.mk ((p.data.reverse.takeWhile (fun c => c ≠ '/')).reverse))

/-- C8: the claim that the alignment name has no directory prefix fails in
single-file mode: for input `d/geneA.fasta` the code's entry is named
`d/geneA` (extension split only), not the spec's `geneA`. -/
theorem C8_counterexample :
    resolveSingle "d/geneA.fasta" = [("d/geneA", "d/geneA.fasta")] ∧
    specAlignName "d/geneA.fasta" = "geneA" ∧
    ("d/geneA" : String) ≠ "geneA" := by
  exact ⟨by decide, by decide, by decide⟩

lemma rfindPos_not_mem (c : Char) :
    ∀ l : List Char, c ∉ l → rfindPos c l = -1
  | [], _ => rfl
  | x :: rest, h => by
      have hr : rfindPos c rest = -1 :=
        rfindPos_not_mem c rest (fun hm => h (by simp [hm]))
      have hx : ¬(x = c) := fun hxc => h (by simp [hxc])
      rw [show rfindPos c (x :: rest)
          = if rfindPos c rest ≥ 0 then rfindPos c rest + 1
            else if x = c then 0 else -1 from rfl,
        hr, if_neg (by norm_num), if_neg hx]

lemma rfindPos_last (c : Char) :
    ∀ (pre suf : List Char), c ∉ suf →
      rfindPos c (pre ++ c :: suf) = (pre.length : Int)
  | [], suf, h => by
      show rfindPos c (c :: suf) = 0
      simp only [rfindPos, rfindPos_not_mem c suf h]
      norm_num
  | x :: pre, suf, h => by
      show rfindPos c (x :: (pre ++ c :: suf)) = ((x :: pre).length : Int)
      have hr := rfindPos_last c pre suf h
      simp only [rfindPos, hr]
      have hge : (pre.length : Int) ≥ 0 := Int.ofNat_nonneg _
      rw [if_pos hge]
      simp

lemma mem_of_isPrefixOf {pat l : List Char} (h : pat.isPrefixOf l = true) :
    ∀ x ∈ pat, x ∈ l := by
  rw [List.isPrefixOf_iff_prefix] at h
  exact fun x hx => h.subset hx

lemma removeAllOccAux_no_match (pat : List Char) (hs : '/' ∈ pat) :
    ∀ (fuel : Nat) (l : List Char), '/' ∉ l → removeAllOccAux pat fuel l = l
  | 0, _, _ => rfl
  | _ + 1, [], _ => rfl
  | fuel + 1, c :: rest, hl => by
      have hnp : ¬(pat ≠ [] ∧ pat.isPrefixOf (c :: rest) = true) := by
        rintro ⟨-, hpre⟩
        exact hl (mem_of_isPrefixOf hpre '/' hs)
      show (if pat ≠ [] ∧ pat.isPrefixOf (c :: rest) then
          removeAllOccAux pat fuel ((c :: rest).drop pat.length)
        else c :: removeAllOccAux pat fuel rest) = c :: rest
      rw [if_neg hnp]
      rw [removeAllOccAux_no_match pat hs fuel rest
        (fun hm => hl (by simp [hm]))]

lemma removeAllOcc_strip (pat b : List Char) (hne : pat ≠ [])
    (hs : '/' ∈ pat) (hb : '/' ∉ b) :
    removeAllOcc pat (pat ++ b) = b := by
  obtain ⟨c, pr, hc⟩ := List.exists_cons_of_ne_nil hne
  have hlen : (pat ++ b).length = (pat.length - 1 + b.length) + 1 := by
    subst hc; simp [List.length_append]
  unfold removeAllOcc
  rw [hlen]
  have hl : pat ++ b = c :: (pr ++ b) := by subst hc; simp
  rw [hl]
  have hcond : pat ≠ [] ∧ pat.isPrefixOf (c :: (pr ++ b)) = true := by
    refine ⟨hne, ?_⟩
    rw [← hl]
    exact isPrefixOf_append_self pat b
  show (if pat ≠ [] ∧ pat.isPrefixOf (c :: (pr ++ b)) then
      removeAllOccAux pat (pat.length - 1 + b.length)
        ((c :: (pr ++ b)).drop pat.length)
    else _) = b
  rw [if_pos hcond]
  have hdrop : (c :: (pr ++ b)).drop pat.length = b := by
    rw [← hl]
    exact List.drop_left pat b
  rw [hdrop, removeAllOccAux_no_match pat hs _ b hb]

lemma takeWhile_stop (p : Char → Bool) :
    ∀ (l₁ : List Char) (a : Char) (l₂ : List Char),
      (∀ x ∈ l₁, p x = true) → p a = false →
      List.takeWhile p (l₁ ++ a :: l₂) = l₁
  | [], a, l₂, _, hpa => by simp [List.takeWhile_cons, hpa]
  | x :: l₁, a, l₂, h, hpa => by
      simp only [List.cons_append, List.takeWhile_cons, h x (by simp), if_true]
      rw [takeWhile_stop p l₁ a l₂ (fun y hy => h y (by simp [hy])) hpa]

lemma afterLastSlash_eq (pre suf : List Char) (h : '/' ∉ suf) :
    (((pre ++ '/' :: suf).reverse.takeWhile (fun c => c ≠ '/')).reverse) = suf := by
  rw [List.reverse_append, List.reverse_cons]
  have hassoc : suf.reverse ++ ['/'] ++ pre.reverse
      = suf.reverse ++ '/' :: pre.reverse := by
    rw [List.append_assoc]; rfl
  rw [hassoc, takeWhile_stop _ suf.reverse '/' pre.reverse
    (fun x hx => by
      have : x ∈ suf := List.mem_reverse.mp hx
      simp only [decide_eq_true_eq]
      exact fun hx2 => h (hx2 ▸ this))
    (by simp), List.reverse_reverse]

lemma getD_two_after (pre : List Char) (x y : Char) (rest : List Char) :
    (pre ++ x :: y :: rest).getD (pre.length + 1) '.' = y := by
  rw [List.getD_eq_getElem?_getD, List.getElem?_append_right (by omega)]
  simp

/-- Tail of the `.fasta` extension. -/
def fastaTail : List Char := ['f', 'a', 's', 't', 'a']

lemma splitextRootL_dir (d2 b : List Char) (h1 : '/' ∉ b) (h2 : '.' ∉ b)
    (hb : b ≠ []) :
    splitextRootL (d2 ++ '/' :: (b ++ '.' :: fastaTail)) = d2 ++ '/' :: b := by
  obtain ⟨b0, bt, rfl⟩ := List.exists_cons_of_ne_nil hb
  have hsuf : '/' ∉ (b0 :: bt) ++ '.' :: fastaTail := by
    intro hm
    rcases List.mem_append.mp hm with hm | hm
    · exact h1 hm
    · exact absurd hm (by decide)
  have hsep : rfindPos '/' (d2 ++ '/' :: ((b0 :: bt) ++ '.' :: fastaTail))
      = (d2.length : Int) := rfindPos_last '/' d2 _ hsuf
  have hre : d2 ++ '/' :: ((b0 :: bt) ++ '.' :: fastaTail)
      = (d2 ++ '/' :: (b0 :: bt)) ++ '.' :: fastaTail := by simp
  have hdot : rfindPos '.' (d2 ++ '/' :: ((b0 :: bt) ++ '.' :: fastaTail))
      = ((d2 ++ '/' :: (b0 :: bt)).length : Int) := by
    rw [hre]
    exact rfindPos_last '.' _ _ (by decide)
  have hlen : (d2 ++ '/' :: (b0 :: bt)).length = d2.length + bt.length + 2 := by
    simp [List.length_append]
    omega
  have hb0 : b0 ≠ '.' := fun hc => h2 (by simp [hc])
  have hscan : scanNonDot (d2 ++ '/' :: ((b0 :: bt) ++ '.' :: fastaTail))
      (d2.length + 1) (d2.length + bt.length + 2) = true := by
    unfold scanNonDot
    have hd : d2.length + bt.length + 2 - (d2.length + 1) = bt.length + 1 := by
      omega
    rw [hd]
    have hshape : (b0 :: bt) ++ '.' :: fastaTail
        = b0 :: (bt ++ '.' :: fastaTail) := rfl
    rw [hshape]
    show (if (d2 ++ '/' :: b0 :: (bt ++ '.' :: fastaTail)).getD
          (d2.length + 1) '.' ≠ '.' then true
        else scanGo (d2 ++ '/' :: b0 :: (bt ++ '.' :: fastaTail)) bt.length
          (d2.length + 1 + 1)) = true
    rw [getD_two_after d2 '/' b0 (bt ++ '.' :: fastaTail), if_pos hb0]
  have hcond : rfindPos '/' (d2 ++ '/' :: ((b0 :: bt) ++ '.' :: fastaTail))
        < rfindPos '.' (d2 ++ '/' :: ((b0 :: bt) ++ '.' :: fastaTail)) ∧
      scanNonDot (d2 ++ '/' :: ((b0 :: bt) ++ '.' :: fastaTail))
        (rfindPos '/' (d2 ++ '/' :: ((b0 :: bt) ++ '.' :: fastaTail)) + 1).toNat
        (rfindPos '.' (d2 ++ '/' :: ((b0 :: bt) ++ '.' :: fastaTail))).toNat
        = true := by
    rw [hsep, hdot, hlen]
    refine ⟨by push_cast; omega, ?_⟩
    have e1 : ((d2.length : Int) + 1).toNat = d2.length + 1 := by omega
    have e2 : ((d2.length + bt.length + 2 : Nat) : Int).toNat
        = d2.length + bt.length + 2 := by omega
    rw [e1, e2]
    exact hscan
  unfold splitextRootL
  rw [if_pos hcond, hdot, hlen]
  have e2 : ((d2.length + bt.length + 2 : Nat) : Int).toNat
      = d2.length + bt.length + 2 := by omega
  rw [e2, hre, ← hlen, List.take_left]

lemma splitextRootL_nosep (b : List Char) (h1 : '/' ∉ b) (h2 : '.' ∉ b)
    (hb : b ≠ []) :
    splitextRootL (b ++ '.' :: fastaTail) = b := by
  obtain ⟨b0, bt, rfl⟩ := List.exists_cons_of_ne_nil hb
  have hslash : '/' ∉ (b0 :: bt) ++ '.' :: fastaTail := by
    intro hm
    rcases List.mem_append.mp hm with hm | hm
    · exact h1 hm
    · exact absurd hm (by decide)
  have hsep : rfindPos '/' ((b0 :: bt) ++ '.' :: fastaTail) = -1 :=
    rfindPos_not_mem '/' _ hslash
  have hdot : rfindPos '.' ((b0 :: bt) ++ '.' :: fastaTail)
      = (((b0 :: bt).length : Nat) : Int) := rfindPos_last '.' _ _ (by decide)
  have hb0 : b0 ≠ '.' := fun hc => h2 (by simp [hc])
  have hscan : scanNonDot ((b0 :: bt) ++ '.' :: fastaTail) 0 (bt.length + 1)
      = true := by
    unfold scanNonDot
    have hd : bt.length + 1 - 0 = bt.length + 1 := by omega
    rw [hd]
    have hshape : (b0 :: bt) ++ '.' :: fastaTail
        = b0 :: (bt ++ '.' :: fastaTail) := rfl
    rw [hshape]
    show (if (b0 :: (bt ++ '.' :: fastaTail)).getD 0 '.' ≠ '.' then true
        else scanGo (b0 :: (bt ++ '.' :: fastaTail)) bt.length (0 + 1)) = true
    have hg : (b0 :: (bt ++ '.' :: fastaTail)).getD 0 '.' = b0 := by simp
    rw [hg, if_pos hb0]
  have hcond : rfindPos '/' ((b0 :: bt) ++ '.' :: fastaTail)
        < rfindPos '.' ((b0 :: bt) ++ '.' :: fastaTail) ∧
      scanNonDot ((b0 :: bt) ++ '.' :: fastaTail)
        (rfindPos '/' ((b0 :: bt) ++ '.' :: fastaTail) + 1).toNat
        (rfindPos '.' ((b0 :: bt) ++ '.' :: fastaTail)).toNat = true := by
    rw [hsep, hdot]
    refine ⟨by omega, ?_⟩
    have e1 : ((-1 : Int) + 1).toNat = 0 := by omega
    have hlc : (b0 :: bt).length = bt.length + 1 := rfl
    have e2 : (((b0 :: bt).length : Nat) : Int).toNat = bt.length + 1 := by
      rw [hlc]
      omega
    rw [e1, e2]
    exact hscan
  unfold splitextRootL
  rw [if_pos hcond, hdot]
  have hlc : (b0 :: bt).length = bt.length + 1 := rfl
  have e2 : (((b0 :: bt).length : Nat) : Int).toNat = bt.length + 1 := by
    rw [hlc]
    omega
  rw [e2, ← hlc, List.take_left]

/-- C8 (amended): single-file mode yields exactly the one entry whose name is
the input path without its extension — the directory prefix is kept, unlike
the spec's words; directory mode strips the extension and deletes every
occurrence of the directory string, which for a directory path ending in `/`
and a base name free of `/` and `.` yields exactly the file name without
extension and without directory prefix (the spec's name). -/
theorem C8_resolver_amended :
    (∀ p : String, resolveSingle p = [(splitextRoot p, p)]) ∧
    (∀ d2 b : List Char, '/' ∉ b → '.' ∉ b → b ≠ [] →
      dirAlignName (String.mk (d2 ++ ['/']))
          (String.mk (d2 ++ '/' :: (b ++ '.' :: fastaTail))) = String.mk b ∧
      specAlignName (String.mk (d2 ++ '/' :: (b ++ '.' :: fastaTail)))
        = String.mk b) := by
  constructor
  · intro p
    rfl
  · intro d2 b h1 h2 hb
    have hsuf : '/' ∉ b ++ '.' :: fastaTail := by
      intro hm
      rcases List.mem_append.mp hm with hm | hm
      · exact h1 hm
      · exact absurd hm (by decide)
    constructor
    · unfold dirAlignName
      show String.mk (removeAllOcc (d2 ++ ['/'])
          (splitextRootL (d2 ++ '/' :: (b ++ '.' :: fastaTail)))) = String.mk b
      rw [splitextRootL_dir d2 b h1 h2 hb]
      have hshape : d2 ++ '/' :: b = (d2 ++ ['/']) ++ b := by simp
      rw [hshape, removeAllOcc_strip (d2 ++ ['/']) b (by simp) (by simp) h1]
    · unfold specAlignName
      show splitextRoot (String.mk
          (((d2 ++ '/' :: (b ++ '.' :: fastaTail)).reverse.takeWhile
            (fun c => c ≠ '/')).reverse)) = String.mk b
      rw [afterLastSlash_eq d2 (b ++ '.' :: fastaTail) hsuf]
      show String.mk (splitextRootL (b ++ '.' :: fastaTail)) = String.mk b
      rw [splitextRootL_nosep b h1 h2 hb]

/-- Concrete instantiation of `C8_resolver_amended` at directory `d/` and
file `d/geneA.fasta`. -/
theorem C8_resolver_amended_witness :
    resolveSingle "x.fasta" = [(splitextRoot "x.fasta", "x.fasta")] ∧
    dirAlignName (String.mk (['d'] ++ ['/']))
        (String.mk (['d'] ++ '/' :: (['g', 'e', 'n', 'e', 'A'] ++ '.' :: fastaTail)))
      = String.mk ['g', 'e', 'n', 'e', 'A'] ∧
    specAlignName (String.mk (['d'] ++ '/' :: (['g', 'e', 'n', 'e', 'A'] ++ '.' :: fastaTail)))
      = String.mk ['g', 'e', 'n', 'e', 'A'] := by
  have h2 := C8_resolver_amended.2 ['d'] ['g', 'e', 'n', 'e', 'A']
    (by decide) (by decide) (by decide)
  exact ⟨C8_resolver_amended.1 "x.fasta", h2.1, h2.2⟩

end SelStats
